import Mathlib

/-!
Shallow embedding of the lazy, windowed batch-iteration layer described by the
repository's specification (the `ExperimentDataPipe` machinery demonstrated in
`src/api/python/notebooks/experimental/pytorch.ipynb`).  The implementation of
`cellxgene_census.experimental.ml` is not shipped under `src/`; every component
below is therefore modelled from the specification text (and, where noted, from
the notebook's documented behavior), faithful to its words.
-/

namespace CensusML

/-! ## ColumnEncoder -/

/-- Modelled from the spec: the error kinds of §7 (`ColumnEncoder` portion).
The implementation of the encoder layer is not under `src/`. -/
inductive EncError where
  | encodingError
  | unknownLabel
  | unknownCode
  deriving DecidableEq, Repr

/-- Modelled from the spec: the distinct labels of a column scan, in first-seen
order (§3 leaves first-seen vs sorted open; we fix first-seen and document it,
as §9 instructs an implementer to do). -/
def firstSeen [DecidableEq α] : List α → List α
  | [] => []
  | v :: vs => v :: (firstSeen vs).filter (· ≠ v)

/-- Modelled from the spec: `code_of` — the integer code a fitted class list
assigns to a label, `none` when the label was not seen at fit time. -/
def code_of [DecidableEq α] : List α → α → Option Nat
  | [], _ => none
  | c :: cs, v => if v = c then some 0 else (code_of cs v).map (· + 1)

/-- Modelled from the spec: `label_of` — the inverse mapping from an integer
code back to the raw label, `none` for out-of-range codes. -/
def label_of (classes : List α) (code : Nat) : Option α :=
  classes.get? code

/-- Modelled from the spec: `encode(values)` maps each value via `code_of`;
fails with `UnknownLabelError` if a value was not present at fit-time (§4.2). -/
def encode [DecidableEq α] (classes : List α) : List α → Except EncError (List Nat)
  | [] => .ok []
  | v :: vs =>
    match code_of classes v with
    | none => .error .unknownLabel
    | some c =>
      match encode classes vs with
      | .error e => .error e
      | .ok cs => .ok (c :: cs)

/-- Modelled from the spec: `decode(codes)` is the inverse mapping; fails with
`UnknownCodeError` for out-of-range codes (§4.2). -/
def decode (classes : List α) : List Nat → Except EncError (List α)
  | [] => .ok []
  | c :: cs =>
    match label_of classes c with
    | none => .error .unknownCode
    | some v =>
      match decode classes cs with
      | .error e => .error e
      | .ok vs => .ok (v :: vs)

/-- Modelled from the spec: a `ColumnEncoder` is a column name together with
the class list populated by `fit` (empty `none` before the first fit). -/
structure ColumnEncoder (α : Type) where
  column_name : String
  classes : Option (List α)
  deriving Repr

/-- Modelled from the spec: `fit` scans the distinct label set once and stores
it; invoked twice with conflicting label sets it fails with `EncodingError`
rather than silently re-fitting (§4.2).  The pair returns the (possibly
updated) encoder and the error, if any. -/
def fit [DecidableEq α] (e : ColumnEncoder α) (vals : List α) :
    ColumnEncoder α × Option EncError :=
  match e.classes with
  | none => ({ e with classes := some (firstSeen vals) }, none)
  | some c =>
    if firstSeen vals = c then (e, none) else (e, some .encodingError)

/-! ## BatchWindowPlanner: sequential windows -/

/-- Modelled from the spec: fuel-driven chunking of an index order into
consecutive windows of `bs` indices (final window may be shorter, §4.3).
Fuel bounds the recursion; `chunks` supplies `l.length`, which is enough
fuel whenever `1 ≤ bs`. -/
def chunksF (bs : Nat) : Nat → List α → List (List α)
  | 0, _ => []
  | _, [] => []
  | fuel + 1, x :: xs => (x :: xs).take bs :: chunksF bs fuel ((x :: xs).drop bs)

/-- Modelled from the spec: the window sequence over a given index order. -/
def chunks (bs : Nat) (l : List α) : List (List α) :=
  chunksF bs l.length l

/-- Modelled from the spec: the unshuffled `BatchWindowPlanner` window
sequence — strictly sequential windows over `0..total_rows-1` (§4.3, §8). -/
def seqWindows (total bs : Nat) : List (List Nat) :=
  chunks bs (List.range total)

/-! ## Seeded randomness -/

/-- Modelled from the spec: one step of a deterministic seeded pseudo-random
generator (a linear congruential step; the spec fixes only that the generator
is deterministic and seeded). -/
def lcgNext (s : Nat) : Nat := (s * 1103515245 + 12345) % 2147483648

/-- Modelled from the spec: the generator state a run starts from — the seed
when one is supplied; otherwise the ambient entropy of that particular call,
so that unseeded calls are independently randomized (§4.3). -/
def initState (seed : Option Nat) (entropy : Nat) : Nat :=
  match seed with
  | some s => s
  | none => entropy

/-- Modelled from the spec: seeded shuffle by repeatedly drawing a
pseudo-random element from the remaining pool.  Fuel-driven so it computes by
kernel reduction; `seededShuffle` supplies `l.length`, exactly enough fuel. -/
def shuffleGo : Nat → Nat → List α → List α
  | 0, _, _ => []
  | _ + 1, _, [] => []
  | fuel + 1, s, x :: xs =>
    (x :: xs).get ⟨s % (x :: xs).length, Nat.mod_lt _ (Nat.succ_pos _)⟩ ::
      shuffleGo fuel (lcgNext s) ((x :: xs).eraseIdx (s % (x :: xs).length))

/-- Modelled from the spec: the deterministic seeded shuffle of a list
(§4.4's "deterministic seeded shuffle of `0..total_rows-1`"). -/
def seededShuffle (s : Nat) (l : List α) : List α := shuffleGo l.length s l

/-- Modelled from the spec: the rolling-buffer shuffle loop of §4.3 — refill
the buffer sequentially from the stream up to capacity `cap`, then emit a
pseudo-randomly chosen buffered element.  Fuel-driven; `bufShuffle` supplies
`2 * l.length`, enough fuel since each step either consumes one stream element
or emits one buffered element. -/
def bufGo (cap : Nat) : Nat → Nat → List α → List α → List α
  | 0, _, _, _ => []
  | fuel + 1, s, buf, stream =>
    if buf.length < cap then
      match stream with
      | x :: rest => bufGo cap fuel s (buf ++ [x]) rest
      | [] =>
        match buf with
        | [] => []
        | b :: bt =>
          (b :: bt).get ⟨s % (b :: bt).length, Nat.mod_lt _ (Nat.succ_pos _)⟩ ::
            bufGo cap fuel (lcgNext s) ((b :: bt).eraseIdx (s % (b :: bt).length)) []
    else
      match buf with
      | [] => []
      | b :: bt =>
        (b :: bt).get ⟨s % (b :: bt).length, Nat.mod_lt _ (Nat.succ_pos _)⟩ ::
          bufGo cap fuel (lcgNext s) ((b :: bt).eraseIdx (s % (b :: bt).length)) stream

/-- Modelled from the spec: the windowed (reservoir-window) shuffle of a list
through a rolling buffer of size `cap` (§4.3). -/
def bufShuffle (cap s : Nat) (l : List α) : List α := bufGo cap (2 * l.length) s [] l

/-- Modelled from the spec: the index order a `BatchWindowPlanner` run emits —
strictly sequential when `shuffle_buffer = 0`, and drawn through the rolling
buffer otherwise (§4.3). -/
def plannedOrder (sb : Nat) (seed : Option Nat) (entropy : Nat) (total : Nat) : List Nat :=
  if sb = 0 then List.range total
  else bufShuffle sb (initState seed entropy) (List.range total)

/-- Modelled from the spec: the window sequence of one `BatchWindowPlanner`
run (the planned order cut into `batch_size` windows). -/
def plannerWindows (total bs sb : Nat) (seed : Option Nat) (entropy : Nat) :
    List (List Nat) :=
  chunks bs (plannedOrder sb seed entropy total)

/-! ## SplitPartitioner -/

/-- Modelled from the spec: the `ConfigError` kind of §7 (invalid split
weights). -/
inductive ConfigError where
  | configError
  deriving DecidableEq, Repr

/-- Modelled from the spec: the small tolerance on the weight sum (§4.4's
"e.g., 1e-6"). -/
def wtol : ℚ := 1 / 1000000

/-- Modelled from the spec: split-weight validation — weights non-negative
and their sum within `wtol` of 1 (§4.4). -/
def weightsOk (ws : List (String × ℚ)) : Bool :=
  ws.all (fun p => decide (0 ≤ p.2)) && decide (|(ws.map Prod.snd).sum - 1| ≤ wtol)

/-- Modelled from the spec: the cut points of §4.4 — cumulative weight
fractions of `total`, rounded down and clamped to `total`, with the final cut
pinned at `total` so the rounding remainder lands in the last-named split and
full coverage is guaranteed. -/
def cutsGo (total : Nat) : ℚ → List ℚ → List Nat
  | _, [] => []
  | _, [_] => [total]
  | cum, w :: w2 :: ws =>
    min total (⌊(cum + w) * total⌋.toNat) :: cutsGo total (cum + w) (w2 :: ws)

/-- Modelled from the spec: split sizes as successive differences of the cut
points. -/
def sizesFromCuts (prev : Nat) : List Nat → List Nat
  | [] => []
  | c :: cs => (c - prev) :: sizesFromCuts c cs

/-- Modelled from the spec: the split sizes induced by the weights over
`total` rows. -/
def splitSizes (total : Nat) (ws : List ℚ) : List Nat :=
  sizesFromCuts 0 (cutsGo total 0 ws)

/-- Modelled from the spec: cutting a list into consecutive segments of the
given sizes. -/
def splitSeg : List α → List Nat → List (List α)
  | _, [] => []
  | l, n :: ns => l.take n :: splitSeg (l.drop n) ns

/-- Modelled from the spec: `SplitPartitioner` — validate the weights, then
deterministically shuffle `0..total_rows-1` with the seeded generator and cut
the shuffled order at the weight-proportional cut points (§4.4). -/
def splitPartition (total : Nat) (ws : List (String × ℚ)) (seed : Option Nat)
    (entropy : Nat) : Except ConfigError (List (String × List Nat)) :=
  if weightsOk ws then
    .ok ((ws.map Prod.fst).zip
      (splitSeg (seededShuffle (initState seed entropy) (List.range total))
        (splitSizes total (ws.map Prod.snd))))
  else .error .configError

/-! ## LazyBatchSource -/

/-- Modelled from the spec: the operations of the backing store collaborator
(§6): `schema(axis)`, `row_count(filter)`, and `read(row_window,
column_filter)`. -/
inductive StoreOp where
  | schemaQuery
  | rowCountQuery
  | readQuery (window : List Nat)
  deriving DecidableEq, Repr

/-- Modelled from the spec: whether a store operation is a data-payload
read. -/
def isRead : StoreOp → Bool
  | .readQuery _ => true
  | _ => false

/-- Modelled from the spec: the number of `read` calls in a trace of store
operations. -/
def readCount (ops : List StoreOp) : Nat := (ops.filter isRead).length

/-- Modelled from the spec: the backing store collaborator — row/column
extents, a `soma_joinid` per row position, one raw label per obs column and
row, and a dense feature row payload (§6, and the notebook's obs columns). -/
structure Store where
  nRows : Nat
  nVars : Nat
  joinid : Nat → Nat
  obsLabel : String → Nat → String
  xRow : Nat → List ℚ

/-- Modelled from the spec: a `LazyBatchSource` in its Planning state — the
filtered row positions, the extents, the requested obs label columns, and the
per-column encoder class lists, keyed by column name and fit over the full
filtered dataset (§3 lifecycle, §4.5; the notebook's `obs_encoders()`). -/
structure LazyBatchSource where
  rows : List Nat
  nVars : Nat
  batchSize : Nat
  obsCols : List String
  encoders : String → List String

/-- Modelled from the spec: construction (`Unopened→Planning`, §4.5) —
validate the filter against the store's schema and compute the row/column
extents without reading any data payload; the second component is the trace
of store operations issued. -/
def mkSource (st : Store) (pred : Nat → Bool) (obsCols : List String) (bs : Nat) :
    LazyBatchSource × List StoreOp :=
  let rows := (List.range st.nRows).filter pred
  ({ rows := rows
     nVars := st.nVars
     batchSize := bs
     obsCols := obsCols
     encoders := fun c => firstSeen (rows.map (st.obsLabel c)) },
   [.schemaQuery, .rowCountQuery])

/-- Modelled from the spec: `shape` — the row/column extents, answered from
the Planning state with no further store operations (§4.5's "inspect shape
without loading" contract). -/
def shape (src : LazyBatchSource) : (Nat × Nat) × List StoreOp :=
  ((src.rows.length, src.nVars), [])

/-- Modelled from the spec and notebook: one yielded batch — the dense
feature rows paired with the label rows, each label row being the row's
`soma_joinid` followed by the encoded requested obs columns in request order
(the notebook's `y_batch` layout). -/
structure Batch where
  x : List (List ℚ)
  y : List (List Nat)

/-- Modelled from the spec and notebook: the batches yielded by iterating the
source to exhaustion over a given row order (§4.5 Streaming). -/
def allBatches (st : Store) (src : LazyBatchSource) (order : List Nat) : List Batch :=
  (chunks src.batchSize order).map fun w =>
    { x := w.map st.xRow
      y := w.map fun r =>
        st.joinid r :: src.obsCols.map fun c =>
          (code_of (src.encoders c) (st.obsLabel c r)).getD 0 }

/-- Modelled from the spec: `random_split` — compose a `SplitPartitioner`
over the source's filtered row extent and return one `LazyBatchSource` per
split name, each scoped to its partition's indices; a pure index-subsetting
operation (§4.5). -/
def randomSplit (src : LazyBatchSource) (ws : List (String × ℚ)) (seed : Option Nat)
    (entropy : Nat) : Except ConfigError (List (String × LazyBatchSource)) :=
  if weightsOk ws then
    .ok ((ws.map Prod.fst).zip
      ((splitSeg (seededShuffle (initState seed entropy) src.rows)
        (splitSizes src.rows.length (ws.map Prod.snd))).map
        (fun seg => { src with rows := seg })))
  else .error .configError

end CensusML

/-! ## Theorems -/

namespace CensusML

theorem firstSeen_mem [DecidableEq α] (vals : List α) (v : α) :
    v ∈ firstSeen vals ↔ v ∈ vals := by
  induction vals with
  | nil => simp [firstSeen]
  | cons x xs ih =>
    by_cases hvx : v = x
    · simp [firstSeen, hvx]
    · simp [firstSeen, hvx, List.mem_filter, ih]

theorem firstSeen_nodup [DecidableEq α] (vals : List α) :
    (firstSeen vals).Nodup := by
  induction vals with
  | nil => simp [firstSeen]
  | cons x xs ih =>
    refine List.Nodup.cons ?_ (ih.filter _)
    intro hx
    have hne : x ≠ x := by simpa using (List.mem_filter.mp hx).2
    exact hne rfl

theorem chunksF_nil (bs fuel : Nat) : chunksF (α := α) bs fuel [] = [] := by
  cases fuel <;> rfl

theorem chunksF_flatten (bs : Nat) (hbs : 1 ≤ bs) :
    ∀ fuel (l : List α), l.length ≤ fuel → (chunksF bs fuel l).flatten = l := by
  intro fuel
  induction fuel with
  | zero =>
    intro l hl
    have : l = [] := List.length_eq_zero.mp (Nat.le_zero.mp hl)
    subst this
    rfl
  | succ n ih =>
    intro l hl
    match l with
    | [] => rfl
    | x :: xs =>
      show ((x :: xs).take bs ++ (chunksF bs n ((x :: xs).drop bs)).flatten) = x :: xs
      rw [ih ((x :: xs).drop bs) (by simp at hl ⊢; omega)]
      exact List.take_append_drop bs (x :: xs)

theorem chunksF_dropLast_length (bs : Nat) :
    ∀ fuel (l : List α), ∀ w ∈ (chunksF bs fuel l).dropLast, w.length = bs := by
  intro fuel
  induction fuel with
  | zero => intro l w hw; simp [chunksF] at hw
  | succ n ih =>
    intro l w hw
    match l with
    | [] => simp [chunksF] at hw
    | x :: xs =>
      have hdef : chunksF bs (n + 1) (x :: xs)
          = (x :: xs).take bs :: chunksF bs n ((x :: xs).drop bs) := rfl
      rw [hdef] at hw
      cases hC : chunksF bs n ((x :: xs).drop bs) with
      | nil => rw [hC] at hw; simp at hw
      | cons c cs =>
        rw [hC, List.dropLast_cons₂] at hw
        rcases List.mem_cons.mp hw with hw | hw
        · subst hw
          have hdrop : (x :: xs).drop bs ≠ [] := by
            intro hd
            rw [hd, chunksF_nil] at hC
            exact List.noConfusion hC
          have hlen : bs ≤ (x :: xs).length := by
            by_contra hlt
            exact hdrop (List.drop_eq_nil_of_le (Nat.le_of_not_le hlt))
          rw [List.length_take]
          exact Nat.min_eq_left (by simpa using hlen)
        · have := ih ((x :: xs).drop bs) w (by rw [hC]; exact hw)
          exact this

theorem chunksF_getLast_length (bs : Nat) (hbs : 1 ≤ bs) :
    ∀ fuel (l : List α), l.length ≤ fuel → ∀ w, (chunksF bs fuel l).getLast? = some w →
      w.length = if l.length % bs = 0 then bs else l.length % bs := by
  intro fuel
  induction fuel with
  | zero => intro l hl w hw; simp [chunksF] at hw
  | succ n ih =>
    intro l hl w hw
    match l with
    | [] => simp [chunksF] at hw
    | x :: xs =>
      have hdef : chunksF bs (n + 1) (x :: xs)
          = (x :: xs).take bs :: chunksF bs n ((x :: xs).drop bs) := rfl
      rw [hdef] at hw
      cases hC : chunksF bs n ((x :: xs).drop bs) with
      | nil =>
        rw [hC] at hw
        simp only [List.getLast?_singleton, Option.some.injEq] at hw
        have hdrop : (x :: xs).drop bs = [] := by
          by_contra hd
          have hle : ((x :: xs).drop bs).length ≤ n := by simp at hl ⊢; omega
          cases hD : (x :: xs).drop bs with
          | nil => exact hd hD
          | cons y ys =>
            rw [hD] at hC
            cases n with
            | zero => rw [hD] at hle; simp at hle
            | succ m => exact List.noConfusion hC
        have hlen : (x :: xs).length ≤ bs := by
          have := List.drop_eq_nil_iff.mp hdrop
          omega
        have hw' : w = x :: xs := by
          rw [List.take_of_length_le hlen] at hw
          exact hw.symm
        subst hw'
        rcases Nat.lt_or_ge (x :: xs).length bs with hlt | hge
        · rw [if_neg]
          · exact (Nat.mod_eq_of_lt hlt).symm
          · rw [Nat.mod_eq_of_lt hlt]; simp
        · have heq : (x :: xs).length = bs := Nat.le_antisymm hlen hge
          rw [heq, if_pos (Nat.mod_self bs)]
      | cons c cs =>
        rw [hC, List.getLast?_cons_cons] at hw
        have hdrop : (x :: xs).drop bs ≠ [] := by
          intro hd
          rw [hd, chunksF_nil] at hC
          exact List.noConfusion hC
        have hbsle : bs ≤ (x :: xs).length := by
          by_contra hlt
          exact hdrop (List.drop_eq_nil_of_le (Nat.le_of_not_le hlt))
        have hres := ih ((x :: xs).drop bs) (by simp at hl ⊢; omega) w (by rw [hC]; exact hw)
        rw [List.length_drop] at hres
        rw [← Nat.mod_eq_sub_mod hbsle] at hres
        exact hres

theorem chunksF_length_eq (bs : Nat) (hbs : 1 ≤ bs) :
    ∀ fuel (l : List α), l.length ≤ fuel →
      (chunksF bs fuel l).length = (l.length + bs - 1) / bs := by
  intro fuel
  induction fuel with
  | zero =>
    intro l hl
    have : l = [] := List.length_eq_zero.mp (Nat.le_zero.mp hl)
    subst this
    simp [chunksF, Nat.div_eq_of_lt (show bs - 1 < bs by omega)]
  | succ n ih =>
    intro l hl
    match l with
    | [] => simp [chunksF_nil, Nat.div_eq_of_lt (show bs - 1 < bs by omega)]
    | x :: xs =>
      have hdef : chunksF bs (n + 1) (x :: xs)
          = (x :: xs).take bs :: chunksF bs n ((x :: xs).drop bs) := rfl
      rw [hdef, List.length_cons, ih ((x :: xs).drop bs) (by simp at hl ⊢; omega),
        List.length_drop]
      have hn1 : 1 ≤ (x :: xs).length := by simp
      generalize (x :: xs).length = m at hn1 ⊢
      rcases le_or_lt m bs with hle | hlt
      · have h0 : m - bs = 0 := by omega
        have h1 : m + bs - 1 = (m - 1) + bs := by omega
        have e1 : (0 + bs - 1) / bs = 0 := Nat.div_eq_of_lt (by omega)
        have e2 : (m - 1) / bs = 0 := Nat.div_eq_of_lt (by omega)
        rw [h0, h1, Nat.add_div_right _ (by omega), e1, e2]
      · have h1 : m - bs + bs - 1 = (m - bs - 1) + bs := by omega
        have h2 : m + bs - 1 = ((m - bs - 1) + bs) + bs := by omega
        rw [h1, h2, Nat.add_div_right _ (by omega), Nat.add_div_right _ (by omega),
          Nat.add_div_right _ (by omega)]

theorem chunks_flatten (bs : Nat) (hbs : 1 ≤ bs) (l : List α) :
    (chunks bs l).flatten = l :=
  chunksF_flatten bs hbs l.length l (Nat.le_refl _)

theorem chunks_length (bs : Nat) (hbs : 1 ≤ bs) (l : List α) :
    (chunks bs l).length = (l.length + bs - 1) / bs :=
  chunksF_length_eq bs hbs l.length l (Nat.le_refl _)

/-- Claim C1: for every `total_rows ≥ 0` and `batch_size ≥ 1`, the unshuffled
window sequence partitions `0..total_rows-1` exactly — every index appears in
exactly one window and the windows appear in index order (their concatenation
is `0, 1, ..., total_rows-1`), every window except possibly the last has
length `batch_size`, the final window has length `total_rows mod batch_size`
(or `batch_size` when it divides evenly); and a 15020-row source with
`batch_size = 16` yields exactly 939 windows, the last holding 12 rows. -/
theorem claim_C1_window_partition (total bs : Nat) (hbs : 1 ≤ bs) :
    (seqWindows total bs).flatten = List.range total
    ∧ (∀ w ∈ (seqWindows total bs).dropLast, w.length = bs)
    ∧ (∀ w, (seqWindows total bs).getLast? = some w →
        w.length = if total % bs = 0 then bs else total % bs)
    ∧ (seqWindows 15020 16).length = 939
    ∧ (∀ w, (seqWindows 15020 16).getLast? = some w → w.length = 12) := by
  refine ⟨chunks_flatten bs hbs _, chunksF_dropLast_length bs _ _, ?_, ?_, ?_⟩
  · intro w hw
    have h := chunksF_getLast_length bs hbs (List.range total).length
      (List.range total) (Nat.le_refl _) w hw
    rwa [List.length_range] at h
  · show (chunks 16 (List.range 15020)).length = 939
    rw [chunks_length 16 (by omega), List.length_range]
  · intro w hw
    have h := chunksF_getLast_length 16 (by omega) (List.range 15020).length
      (List.range 15020) (Nat.le_refl _) w hw
    rw [List.length_range] at h
    simpa using h

/-- Witness for C1, instantiated at `total_rows = 7`, `batch_size = 3`. -/
theorem claim_C1_window_partition_witness :
    1 ≤ 3
    ∧ ((seqWindows 7 3).flatten = List.range 7
    ∧ (∀ w ∈ (seqWindows 7 3).dropLast, w.length = 3)
    ∧ (∀ w, (seqWindows 7 3).getLast? = some w →
        w.length = if 7 % 3 = 0 then 3 else 7 % 3)
    ∧ (seqWindows 15020 16).length = 939
    ∧ (∀ w, (seqWindows 15020 16).getLast? = some w → w.length = 12)) :=
  ⟨by decide, claim_C1_window_partition 7 3 (by decide)⟩

theorem code_of_get? [DecidableEq α] (cls : List α) (v : α) (i : Nat)
    (h : code_of cls v = some i) : cls.get? i = some v := by
  induction cls generalizing i with
  | nil => simp [code_of] at h
  | cons c cs ih =>
    by_cases hv : v = c
    · simp [code_of, hv] at h
      subst hv
      simp [← h]
    · simp [code_of, hv] at h
      obtain ⟨j, hj, hij⟩ := h
      subst hij
      simpa using ih j hj

theorem get?_code_of [DecidableEq α] (cls : List α) (hnd : cls.Nodup) (v : α) (i : Nat)
    (h : cls.get? i = some v) : code_of cls v = some i := by
  induction cls generalizing i with
  | nil => simp at h
  | cons c cs ih =>
    match i with
    | 0 =>
      rw [List.get?_cons_zero, Option.some.injEq] at h
      simp [code_of, h.symm]
    | j + 1 =>
      rw [List.get?_cons_succ] at h
      have hmem : v ∈ cs := List.get?_mem h
      have hvc : v ≠ c := by
        intro hvc
        subst hvc
        exact (List.nodup_cons.mp hnd).1 hmem
      simp [code_of, hvc, ih (List.nodup_cons.mp hnd).2 j h]

theorem code_of_eq_none_iff [DecidableEq α] (cls : List α) (v : α) :
    code_of cls v = none ↔ v ∉ cls := by
  induction cls with
  | nil => simp [code_of]
  | cons c cs ih =>
    by_cases hv : v = c
    · simp [code_of, hv]
    · simp [code_of, hv, ih]

theorem encode_error_unknown [DecidableEq α] (cls : List α) (vals : List α) (e : EncError)
    (h : encode cls vals = .error e) : e = .unknownLabel := by
  induction vals with
  | nil => simp [encode] at h
  | cons v vs ih =>
    rw [encode] at h
    cases hc : code_of cls v with
    | none => rw [hc] at h; cases h; rfl
    | some c =>
      rw [hc] at h
      cases he : encode cls vs with
      | error e2 => rw [he] at h; cases h; exact ih he
      | ok cs => rw [he] at h; cases h

theorem encode_error_iff [DecidableEq α] (cls : List α) (vals : List α) :
    encode cls vals = .error .unknownLabel ↔ ∃ v ∈ vals, v ∉ cls := by
  induction vals with
  | nil => simp [encode]
  | cons v vs ih =>
    rw [encode]
    cases hc : code_of cls v with
    | none =>
      have hv : v ∉ cls := (code_of_eq_none_iff cls v).mp hc
      simp [hv]
    | some c =>
      have hv : v ∈ cls := by
        by_contra hv
        rw [(code_of_eq_none_iff cls v).mpr hv] at hc
        exact Option.noConfusion hc
      cases he : encode cls vs with
      | error e2 =>
        have he2 : e2 = .unknownLabel := encode_error_unknown cls vs e2 he
        subst he2
        refine ⟨fun _ => ?_, fun _ => rfl⟩
        obtain ⟨u, hu, hn⟩ := ih.mp he
        exact ⟨u, List.mem_cons_of_mem v hu, hn⟩
      | ok cs =>
        constructor
        · intro h; exact Except.noConfusion h
        · rintro ⟨u, hu, hn⟩
          rcases List.mem_cons.mp hu with rfl | hu2
          · exact absurd hv hn
          · have h2 := ih.mpr ⟨u, hu2, hn⟩
            rw [he] at h2
            exact Except.noConfusion h2

theorem decode_error_unknown (cls : List α) (codes : List Nat) (e : EncError)
    (h : decode cls codes = .error e) : e = .unknownCode := by
  induction codes with
  | nil => simp [decode] at h
  | cons c cs ih =>
    rw [decode] at h
    cases hc : label_of cls c with
    | none => rw [hc] at h; cases h; rfl
    | some v =>
      rw [hc] at h
      cases he : decode cls cs with
      | error e2 => rw [he] at h; cases h; exact ih he
      | ok vs => rw [he] at h; cases h

theorem label_of_eq_none_iff (cls : List α) (c : Nat) :
    label_of cls c = none ↔ cls.length ≤ c := by
  simp [label_of, List.get?_eq_none]

theorem decode_error_iff (cls : List α) (codes : List Nat) :
    decode cls codes = .error .unknownCode ↔ ∃ c ∈ codes, cls.length ≤ c := by
  induction codes with
  | nil => simp [decode]
  | cons c cs ih =>
    rw [decode]
    cases hc : label_of cls c with
    | none =>
      have hcge : cls.length ≤ c := (label_of_eq_none_iff cls c).mp hc
      simp [hcge]
    | some v =>
      have hclt : c < cls.length := by
        by_contra hge
        rw [(label_of_eq_none_iff cls c).mpr (Nat.le_of_not_lt hge)] at hc
        exact Option.noConfusion hc
      cases he : decode cls cs with
      | error e2 =>
        have he2 : e2 = .unknownCode := decode_error_unknown cls cs e2 he
        subst he2
        refine ⟨fun _ => ?_, fun _ => rfl⟩
        obtain ⟨u, hu, hn⟩ := ih.mp he
        exact ⟨u, List.mem_cons_of_mem c hu, hn⟩
      | ok vs =>
        constructor
        · intro h; exact Except.noConfusion h
        · rintro ⟨u, hu, hn⟩
          rcases List.mem_cons.mp hu with rfl | hu2
          · omega
          · have h2 := ih.mpr ⟨u, hu2, hn⟩
            rw [he] at h2
            exact Except.noConfusion h2

theorem decode_encode_roundtrip [DecidableEq α] (cls : List α) (vals : List α)
    (h : ∀ v ∈ vals, v ∈ cls) :
    ∃ cs, encode cls vals = .ok cs ∧ decode cls cs = .ok vals := by
  induction vals with
  | nil => exact ⟨[], rfl, rfl⟩
  | cons v vs ih =>
    have hv : v ∈ cls := h v (List.mem_cons_self v vs)
    have hc : ∃ c, code_of cls v = some c := by
      cases hco : code_of cls v with
      | none => exact absurd ((code_of_eq_none_iff cls v).mp hco) (by simp [hv])
      | some c => exact ⟨c, rfl⟩
    obtain ⟨c, hc⟩ := hc
    obtain ⟨cs, hok, hdec⟩ := ih (fun u hu => h u (List.mem_cons_of_mem v hu))
    refine ⟨c :: cs, ?_, ?_⟩
    · rw [encode, hc, hok]
    · rw [decode, show label_of cls c = some v from code_of_get? cls v c hc, hdec]

/-- Claim C2: for an encoder fitted on raw labels `raw`, and any `values` each
occurring in `raw`, `decode (encode values) = values` (round-trip law);
moreover `code_of` and `label_of` are exact mutual inverses on the fitted
class list, and the assigned codes are exactly the contiguous integers
`0..len(classes)-1`. -/
theorem claim_C2_encoder_roundtrip (raw values : List String)
    (h : ∀ v ∈ values, v ∈ raw) :
    (∃ cs, encode (firstSeen raw) values = .ok cs
      ∧ decode (firstSeen raw) cs = .ok values)
    ∧ (∀ v i, code_of (firstSeen raw) v = some i
        ↔ label_of (firstSeen raw) i = some v)
    ∧ (∀ i, (∃ v, code_of (firstSeen raw) v = some i)
        ↔ i < (firstSeen raw).length) := by
  refine ⟨?_, ?_, ?_⟩
  · exact decode_encode_roundtrip (firstSeen raw) values
      (fun v hv => (firstSeen_mem raw v).mpr (h v hv))
  · intro v i
    constructor
    · intro hco
      exact code_of_get? (firstSeen raw) v i hco
    · intro hlo
      exact get?_code_of (firstSeen raw) (firstSeen_nodup raw) v i hlo
  · intro i
    constructor
    · rintro ⟨v, hv⟩
      have hg := code_of_get? (firstSeen raw) v i hv
      exact (List.get?_eq_some.mp hg).1
    · intro hlt
      refine ⟨(firstSeen raw).get ⟨i, hlt⟩, ?_⟩
      exact get?_code_of (firstSeen raw) (firstSeen_nodup raw) _ i (List.get?_eq_get hlt)

/-- Witness for C2, fitted on `["a","b","a","c"]` and encoding `["c","a"]`
(the spec's own round-trip example). -/
theorem claim_C2_encoder_roundtrip_witness :
    (∀ v ∈ (["c", "a"] : List String), v ∈ ["a", "b", "a", "c"])
    ∧ ((∃ cs, encode (firstSeen ["a", "b", "a", "c"]) ["c", "a"] = .ok cs
      ∧ decode (firstSeen ["a", "b", "a", "c"]) cs = .ok ["c", "a"])
    ∧ (∀ v i, code_of (firstSeen ["a", "b", "a", "c"]) v = some i
        ↔ label_of (firstSeen ["a", "b", "a", "c"]) i = some v)
    ∧ (∀ i, (∃ v, code_of (firstSeen ["a", "b", "a", "c"]) v = some i)
        ↔ i < (firstSeen ["a", "b", "a", "c"]).length)) :=
  ⟨by decide, claim_C2_encoder_roundtrip ["a", "b", "a", "c"] ["c", "a"] (by decide)⟩

/-- Claim C7: for a fitted encoder, `encode` fails with `UnknownLabelError`
exactly when some input value was absent at fit-time (and otherwise returns
the codes of all values), and `decode` fails with `UnknownCodeError` exactly
when some code lies outside `0..len(classes)-1` (and otherwise returns the
labels of all codes). -/
theorem claim_C7_encode_decode_errors (raw values : List String) (codes : List Nat) :
    (encode (firstSeen raw) values = .error .unknownLabel ↔ ∃ v ∈ values, v ∉ raw)
    ∧ ((∀ v ∈ values, v ∈ raw) → ∃ cs, encode (firstSeen raw) values = .ok cs)
    ∧ (decode (firstSeen raw) codes = .error .unknownCode
        ↔ ∃ c ∈ codes, (firstSeen raw).length ≤ c)
    ∧ ((∀ c ∈ codes, c < (firstSeen raw).length)
        → ∃ vs, decode (firstSeen raw) codes = .ok vs) := by
  refine ⟨?_, ?_, decode_error_iff _ _, ?_⟩
  · have h1 := encode_error_iff (firstSeen raw) values
    simpa [firstSeen_mem] using h1
  · intro hall
    obtain ⟨cs, hok, _⟩ := decode_encode_roundtrip (firstSeen raw) values
      (fun v hv => (firstSeen_mem raw v).mpr (hall v hv))
    exact ⟨cs, hok⟩
  · intro hall
    cases hd : decode (firstSeen raw) codes with
    | ok vs => exact ⟨vs, rfl⟩
    | error e =>
      have he : e = .unknownCode := decode_error_unknown _ _ _ hd
      subst he
      obtain ⟨c, hc, hge⟩ := (decode_error_iff (firstSeen raw) codes).mp hd
      exact absurd (hall c hc) (by omega)

/-- Claim C8: re-fitting an already fitted encoder with a conflicting label
set yields `EncodingError` rather than silently re-fitting, and the encoder's
existing state is unchanged by the failed re-fit. -/
theorem claim_C8_refit_error (name : String) (raw vals : List String)
    (hconf : firstSeen vals ≠ firstSeen raw) :
    (fit ((fit (⟨name, none⟩ : ColumnEncoder String) raw).1) vals).2
      = some .encodingError
    ∧ (fit ((fit (⟨name, none⟩ : ColumnEncoder String) raw).1) vals).1
      = (fit (⟨name, none⟩ : ColumnEncoder String) raw).1 := by
  have h1 : (fit (⟨name, none⟩ : ColumnEncoder String) raw).1
      = ⟨name, some (firstSeen raw)⟩ := rfl
  rw [h1]
  exact ⟨by simp [fit, hconf], by simp [fit, hconf]⟩

theorem get_cons_eraseIdx_perm (l : List α) (i : Nat) (h : i < l.length) :
    (l.get ⟨i, h⟩ :: l.eraseIdx i).Perm l := by
  have h2 : l.take i ++ l.get ⟨i, h⟩ :: l.drop (i + 1) = l := by
    conv_rhs => rw [← List.take_append_drop i l]
    rw [List.drop_eq_getElem_cons h, List.get_eq_getElem]
  conv_rhs => rw [← h2]
  rw [List.eraseIdx_eq_take_drop_succ]
  exact List.perm_middle.symm

theorem shuffleGo_perm : ∀ (fuel s : Nat) (l : List α), l.length ≤ fuel →
    (shuffleGo fuel s l).Perm l := by
  intro fuel
  induction fuel with
  | zero =>
    intro s l hl
    have : l = [] := List.length_eq_zero.mp (Nat.le_zero.mp hl)
    subst this
    simp [shuffleGo]
  | succ n ih =>
    intro s l hl
    match l with
    | [] => simp [shuffleGo]
    | x :: xs =>
      have hmod : s % (x :: xs).length < (x :: xs).length := Nat.mod_lt _ (Nat.succ_pos _)
      have hlen : ((x :: xs).eraseIdx (s % (x :: xs).length)).length ≤ n := by
        have h1 := List.length_eraseIdx_add_one hmod
        omega
      exact ((ih (lcgNext s) _ hlen).cons _).trans
        (get_cons_eraseIdx_perm (x :: xs) _ hmod)

theorem seededShuffle_perm (s : Nat) (l : List α) : (seededShuffle s l).Perm l :=
  shuffleGo_perm l.length s l (Nat.le_refl _)

theorem bufGo_perm (cap : Nat) (hcap : 1 ≤ cap) : ∀ (fuel s : Nat) (buf stream : List α),
    buf.length + 2 * stream.length ≤ fuel →
    (bufGo cap fuel s buf stream).Perm (buf ++ stream) := by
  intro fuel
  induction fuel with
  | zero =>
    intro s buf stream h
    have hb : buf = [] := List.length_eq_zero.mp (by omega)
    have hs : stream = [] := List.length_eq_zero.mp (by omega)
    subst hb; subst hs
    simp [bufGo]
  | succ n ih =>
    intro s buf stream h
    simp only [bufGo]
    by_cases hlt : buf.length < cap
    · rw [if_pos hlt]
      cases stream with
      | cons x rest =>
        have hp := ih s (buf ++ [x]) rest (by simp at h ⊢; omega)
        simpa using hp
      | nil =>
        cases buf with
        | nil => simp
        | cons b bt =>
          have hmod : s % (b :: bt).length < (b :: bt).length := Nat.mod_lt _ (Nat.succ_pos _)
          have hlen : ((b :: bt).eraseIdx (s % (b :: bt).length)).length + 2 * ([] : List α).length ≤ n := by
            have h1 := List.length_eraseIdx_add_one hmod
            have h2 : ([] : List α).length = 0 := rfl
            omega
          have hp := ih (lcgNext s) _ _ hlen
          have h2 := get_cons_eraseIdx_perm (b :: bt) _ hmod
          refine ((hp.cons _).trans ?_)
          simpa using h2
    · rw [if_neg hlt]
      cases buf with
      | nil => exact absurd hcap (by simpa using hlt)
      | cons b bt =>
        have hmod : s % (b :: bt).length < (b :: bt).length := Nat.mod_lt _ (Nat.succ_pos _)
        have hlen : ((b :: bt).eraseIdx (s % (b :: bt).length)).length + 2 * stream.length ≤ n := by
          have h1 := List.length_eraseIdx_add_one hmod
          omega
        have hp := ih (lcgNext s) _ stream hlen
        have h2 := (get_cons_eraseIdx_perm (b :: bt) _ hmod).append_right stream
        refine (hp.cons _).trans ?_
        simpa using h2

theorem bufShuffle_perm (cap s : Nat) (hcap : 1 ≤ cap) (l : List α) :
    (bufShuffle cap s l).Perm l := by
  have hp := bufGo_perm cap hcap (2 * l.length) s [] l (by simp)
  simpa using hp

theorem cutsGo_length (total : Nat) : ∀ (ws : List ℚ) (cum : ℚ),
    (cutsGo total cum ws).length = ws.length := by
  intro ws
  induction ws with
  | nil => intro cum; rfl
  | cons w rest ih =>
    intro cum
    cases rest with
    | nil => rfl
    | cons w2 ws2 =>
      show (min total ⌊(cum + w) * total⌋.toNat
          :: cutsGo total (cum + w) (w2 :: ws2)).length = (w :: w2 :: ws2).length
      simp [ih (cum + w)]

theorem sizesFromCuts_length : ∀ (cuts : List Nat) (prev : Nat),
    (sizesFromCuts prev cuts).length = cuts.length := by
  intro cuts
  induction cuts with
  | nil => intro prev; rfl
  | cons c cs ih =>
    intro prev
    show ((c - prev) :: sizesFromCuts c cs).length = (c :: cs).length
    simp [ih c]

theorem splitSeg_length : ∀ (ns : List Nat) (l : List α),
    (splitSeg l ns).length = ns.length := by
  intro ns
  induction ns with
  | nil => intro l; rfl
  | cons n ns ih =>
    intro l
    show (l.take n :: splitSeg (l.drop n) ns).length = (n :: ns).length
    simp [ih]

theorem cutsGo_getLast (total : Nat) : ∀ (ws : List ℚ) (cum : ℚ), ws ≠ [] →
    (cutsGo total cum ws).getLast? = some total := by
  intro ws
  induction ws with
  | nil => intro cum h; exact absurd rfl h
  | cons w rest ih =>
    intro cum _
    cases rest with
    | nil => rfl
    | cons w2 ws2 =>
      show (min total ⌊(cum + w) * total⌋.toNat
          :: cutsGo total (cum + w) (w2 :: ws2)).getLast? = some total
      cases hC : cutsGo total (cum + w) (w2 :: ws2) with
      | nil =>
        have := cutsGo_length total (w2 :: ws2) (cum + w)
        rw [hC] at this
        simp at this
      | cons c2 cs2 =>
        rw [List.getLast?_cons_cons, ← hC]
        exact ih (cum + w) (by simp)

theorem chain_le_getLastD : ∀ (cuts : List Nat) (prev : Nat),
    List.Chain (· ≤ ·) prev cuts → prev ≤ cuts.getLast?.getD prev := by
  intro cuts
  induction cuts with
  | nil => intro prev _; exact Nat.le_refl prev
  | cons c cs ih =>
    intro prev hch
    obtain ⟨hpc, hcs⟩ := List.chain_cons.mp hch
    cases cs with
    | nil => simpa using hpc
    | cons d ds =>
      rw [List.getLast?_cons_cons]
      have h2 := ih c hcs
      cases hL : (d :: ds).getLast? with
      | none =>
        have hne : (d :: ds) ≠ ([] : List Nat) := by simp
        rw [← List.getLast?_isSome, hL] at hne
        simp at hne
      | some x =>
        rw [hL] at h2
        simp only [Option.getD_some] at h2 ⊢
        omega

theorem sizesFromCuts_sum : ∀ (cuts : List Nat) (prev : Nat),
    List.Chain (· ≤ ·) prev cuts →
    (sizesFromCuts prev cuts).sum = cuts.getLast?.getD prev - prev := by
  intro cuts
  induction cuts with
  | nil => intro prev _; simp [sizesFromCuts]
  | cons c cs ih =>
    intro prev hch
    obtain ⟨hpc, hcs⟩ := List.chain_cons.mp hch
    show ((c - prev) :: sizesFromCuts c cs).sum = (c :: cs).getLast?.getD prev - prev
    cases cs with
    | nil => simp [sizesFromCuts]
    | cons d ds =>
      rw [List.sum_cons, ih c hcs, List.getLast?_cons_cons]
      have h2 := chain_le_getLastD (d :: ds) c hcs
      cases hL : (d :: ds).getLast? with
      | none =>
        have : (d :: ds) ≠ [] := by simp
        rw [← List.getLast?_isSome] at this
        rw [hL] at this
        simp at this
      | some x =>
        rw [hL] at h2
        simp only [Option.getD_some] at h2 ⊢
        omega

theorem splitSeg_flatten : ∀ (ns : List Nat) (l : List α),
    (splitSeg l ns).flatten = l.take ns.sum := by
  intro ns
  induction ns with
  | nil => intro l; simp [splitSeg]
  | cons n ns ih =>
    intro l
    show (l.take n :: splitSeg (l.drop n) ns).flatten = l.take (n :: ns).sum
    rw [List.flatten_cons, ih, List.sum_cons, List.take_add]

theorem splitSeg_lengths : ∀ (ns : List Nat) (l : List α), ns.sum ≤ l.length →
    (splitSeg l ns).map List.length = ns := by
  intro ns
  induction ns with
  | nil => intro l _; rfl
  | cons n ns ih =>
    intro l h
    rw [List.sum_cons] at h
    show ((l.take n).length :: (splitSeg (l.drop n) ns).map List.length) = n :: ns
    rw [List.length_take, ih (l.drop n) (by rw [List.length_drop]; omega)]
    congr 1
    omega

theorem cutsGo_chain (total : Nat) : ∀ (ws : List ℚ) (cum : ℚ),
    (∀ w ∈ ws, 0 ≤ w) → 0 ≤ cum →
    List.Chain (· ≤ ·) (min total ⌊cum * total⌋.toNat) (cutsGo total cum ws) := by
  intro ws
  induction ws with
  | nil => intro cum _ _; exact List.Chain.nil
  | cons w rest ih =>
    intro cum hnn hcum
    cases rest with
    | nil => exact List.Chain.cons (Nat.min_le_left _ _) List.Chain.nil
    | cons w2 ws2 =>
      show List.Chain (· ≤ ·) (min total ⌊cum * total⌋.toNat)
        (min total ⌊(cum + w) * total⌋.toNat :: cutsGo total (cum + w) (w2 :: ws2))
      have hw0 : 0 ≤ w := hnn w (List.mem_cons_self w _)
      refine List.Chain.cons ?_
        (ih (cum + w) (fun u hu => hnn u (List.mem_cons_of_mem w hu)) (add_nonneg hcum hw0))
      refine min_le_min (le_refl total) (Int.toNat_le_toNat (Int.floor_le_floor ?_))
      exact mul_le_mul_of_nonneg_right (by linarith) (Nat.cast_nonneg total)

theorem clampFloor_bounds (total : Nat) (cum : ℚ) (h0 : 0 ≤ cum) (h1 : cum ≤ 1 + wtol) :
    cum * total - 1 - wtol * total ≤ ((min total ⌊cum * total⌋.toNat : Nat) : ℚ)
    ∧ ((min total ⌊cum * total⌋.toNat : Nat) : ℚ) ≤ cum * total := by
  have ht0 : (0:ℚ) ≤ (total:ℚ) := Nat.cast_nonneg total
  have hq0 : 0 ≤ cum * (total:ℚ) := mul_nonneg h0 ht0
  have hF0 : (0:ℤ) ≤ ⌊cum * (total:ℚ)⌋ := Int.floor_nonneg.mpr hq0
  have hNQ : ((⌊cum * (total:ℚ)⌋.toNat : Nat) : ℚ) = ((⌊cum * (total:ℚ)⌋ : ℤ) : ℚ) := by
    exact_mod_cast congrArg (fun z : ℤ => (z : ℚ)) (Int.toNat_of_nonneg hF0)
  have hfle : ((⌊cum * (total:ℚ)⌋ : ℤ) : ℚ) ≤ cum * total := Int.floor_le _
  have hflt : cum * (total:ℚ) - 1 < ((⌊cum * (total:ℚ)⌋ : ℤ) : ℚ) := Int.sub_one_lt_floor _
  have hwt0 : (0:ℚ) ≤ wtol := by norm_num [wtol]
  have hwtt : (0:ℚ) ≤ wtol * total := mul_nonneg hwt0 ht0
  have hmul : cum * (total:ℚ) ≤ (1 + wtol) * total := mul_le_mul_of_nonneg_right h1 ht0
  have hexp : (1 + wtol) * (total:ℚ) = total + wtol * total := by ring
  rcases le_total total (⌊cum * (total:ℚ)⌋.toNat) with hc | hc
  · rw [min_eq_left hc]
    have hcq : ((total : Nat):ℚ) ≤ ((⌊cum * (total:ℚ)⌋.toNat : Nat):ℚ) := Nat.cast_le.mpr hc
    rw [hNQ] at hcq
    exact ⟨by linarith, by linarith⟩
  · rw [min_eq_right hc]
    rw [hNQ]
    exact ⟨by linarith, by linarith⟩

theorem cuts_sizes_tol (total : Nat) : ∀ (ws : List ℚ) (cum : ℚ),
    (∀ w ∈ ws, 0 ≤ w) → 0 ≤ cum →
    1 - wtol ≤ cum + ws.sum → cum + ws.sum ≤ 1 + wtol →
    ∀ (i : Nat) (sz : Nat) (w : ℚ),
      (sizesFromCuts (min total ⌊cum * total⌋.toNat)
        (cutsGo total cum ws)).get? i = some sz →
      ws.get? i = some w →
      |(sz : ℚ) - w * total| ≤ 1 + 2 * wtol * total := by
  intro ws
  induction ws with
  | nil =>
    intro cum _ _ _ _ i sz w _ hw
    simp at hw
  | cons w rest ih =>
    intro cum hnn hcum hlo hhi i sz w' hsz hw'
    have ht0 : (0:ℚ) ≤ (total:ℚ) := Nat.cast_nonneg total
    have hw0 : 0 ≤ w := hnn w (List.mem_cons_self w rest)
    have hwt0 : (0:ℚ) ≤ wtol := by norm_num [wtol]
    have hwtt : (0:ℚ) ≤ wtol * total := mul_nonneg hwt0 ht0
    have hadd : (cum + w) * (total:ℚ) = cum * total + w * total := add_mul cum w total
    cases rest with
    | nil =>
      match i with
      | 0 =>
        rw [List.get?_cons_zero, Option.some.injEq] at hw'
        subst hw'
        have hsum : (w :: ([] : List ℚ)).sum = w := by simp
        rw [hsum] at hlo hhi
        simp only [cutsGo, sizesFromCuts, List.get?_cons_zero, Option.some.injEq] at hsz
        subst hsz
        have hcum1 : cum ≤ 1 + wtol := by linarith
        obtain ⟨hpl, hpu⟩ := clampFloor_bounds total cum hcum hcum1
        have hple : min total ⌊cum * (total:ℚ)⌋.toNat ≤ total := Nat.min_le_left _ _
        rw [Nat.cast_sub hple]
        have h1 : (1 - wtol) * (total:ℚ) ≤ (cum + w) * total :=
          mul_le_mul_of_nonneg_right hlo ht0
        have h2 : (cum + w) * (total:ℚ) ≤ (1 + wtol) * total :=
          mul_le_mul_of_nonneg_right hhi ht0
        have e2 : (1 - wtol) * (total:ℚ) = total - wtol * total := by ring
        have e3 : (1 + wtol) * (total:ℚ) = total + wtol * total := by ring
        rw [abs_le]
        constructor <;> linarith
      | i + 1 =>
        rw [List.get?_cons_succ] at hw'
        simp at hw'
    | cons w2 ws2 =>
      have hrest0 : ∀ u ∈ (w2 :: ws2), 0 ≤ u :=
        fun u hu => hnn u (List.mem_cons_of_mem w hu)
      have hrs0 : 0 ≤ (w2 :: ws2).sum := List.sum_nonneg hrest0
      rw [List.sum_cons] at hlo hhi
      have hunfold : cutsGo total cum (w :: w2 :: ws2)
          = min total ⌊(cum + w) * total⌋.toNat :: cutsGo total (cum + w) (w2 :: ws2) := rfl
      rw [hunfold] at hsz
      simp only [sizesFromCuts] at hsz
      match i with
      | 0 =>
        rw [List.get?_cons_zero, Option.some.injEq] at hw' hsz
        subst hw'
        subst hsz
        have hcum1 : cum ≤ 1 + wtol := by linarith
        have hcw1 : cum + w ≤ 1 + wtol := by linarith
        obtain ⟨hp1, hp2⟩ := clampFloor_bounds total cum hcum hcum1
        obtain ⟨hc1, hc2⟩ := clampFloor_bounds total (cum + w) (add_nonneg hcum hw0) hcw1
        have hmono : min total ⌊cum * (total:ℚ)⌋.toNat
            ≤ min total ⌊(cum + w) * (total:ℚ)⌋.toNat := by
          refine min_le_min (le_refl total) (Int.toNat_le_toNat (Int.floor_le_floor ?_))
          exact mul_le_mul_of_nonneg_right (by linarith) ht0
        rw [Nat.cast_sub hmono]
        rw [abs_le]
        constructor <;> linarith
      | i + 1 =>
        rw [List.get?_cons_succ] at hw' hsz
        exact ih (cum + w) hrest0 (add_nonneg hcum hw0) (by linarith) (by linarith)
          i sz w' hsz hw'

/-- Claim C3: for every `total_rows`, seed, and valid weights (non-negative,
summing to 1 within tolerance), the split partitioner returns one index set
per named split such that the sets are pairwise disjoint, their union is
exactly `0..total_rows-1`, their sizes sum to `total_rows`, and each split's
size is within rounding tolerance of its weight share of `total_rows`. -/
theorem claim_C3_split_partition (total : Nat) (ws : List (String × ℚ))
    (seed : Option Nat) (entropy : Nat) (hok : weightsOk ws = true) :
    ∃ parts : List (String × List Nat),
      splitPartition total ws seed entropy = .ok parts
      ∧ parts.map Prod.fst = ws.map Prod.fst
      ∧ List.Pairwise List.Disjoint (parts.map Prod.snd)
      ∧ ((parts.map Prod.snd).flatten).Perm (List.range total)
      ∧ ((parts.map Prod.snd).map List.length).sum = total
      ∧ (∀ i sz w, ((parts.map Prod.snd).map List.length).get? i = some sz →
          (ws.map Prod.snd).get? i = some w →
          |(sz : ℚ) - w * total| ≤ 1 + 2 * wtol * total) := by
  have hok' := hok
  rw [weightsOk, Bool.and_eq_true, List.all_eq_true] at hok'
  obtain ⟨hnnb, habsb⟩ := hok'
  have hnn : ∀ u ∈ ws.map Prod.snd, 0 ≤ u := by
    intro u hu
    obtain ⟨p, hp, hpe⟩ := List.mem_map.mp hu
    have hnp := hnnb p hp
    rw [decide_eq_true_eq] at hnp
    rw [← hpe]
    exact hnp
  have habs : |(ws.map Prod.snd).sum - 1| ≤ wtol := by
    rw [decide_eq_true_eq] at habsb
    exact habsb
  have habs' := abs_le.mp habs
  have hlo : 1 - wtol ≤ 0 + (ws.map Prod.snd).sum := by linarith [habs'.1]
  have hhi : 0 + (ws.map Prod.snd).sum ≤ 1 + wtol := by linarith [habs'.2]
  have hwsne : ws ≠ [] := by
    intro h
    subst h
    simp at habs
    norm_num [wtol] at habs
  have hmapne : ws.map Prod.snd ≠ [] := by simpa using hwsne
  have hpl : (seededShuffle (initState seed entropy) (List.range total)).Perm
      (List.range total) := seededShuffle_perm _ _
  have hplen : (seededShuffle (initState seed entropy) (List.range total)).length
      = total := by rw [hpl.length_eq, List.length_range]
  have hnd : (seededShuffle (initState seed entropy) (List.range total)).Nodup :=
    hpl.symm.nodup (List.nodup_range total)
  have hchain : List.Chain (· ≤ ·) 0 (cutsGo total 0 (ws.map Prod.snd)) := by
    have h := cutsGo_chain total (ws.map Prod.snd) 0 hnn le_rfl
    simpa using h
  have hlast : (cutsGo total 0 (ws.map Prod.snd)).getLast? = some total :=
    cutsGo_getLast total _ 0 hmapne
  have hsum : (splitSizes total (ws.map Prod.snd)).sum = total := by
    simp only [splitSizes]
    rw [sizesFromCuts_sum _ 0 hchain, hlast]
    simp
  have hflat : (splitSeg (seededShuffle (initState seed entropy) (List.range total))
      (splitSizes total (ws.map Prod.snd))).flatten
      = seededShuffle (initState seed entropy) (List.range total) := by
    rw [splitSeg_flatten, hsum]
    exact List.take_of_length_le (le_of_eq hplen)
  have hlens : (splitSeg (seededShuffle (initState seed entropy) (List.range total))
      (splitSizes total (ws.map Prod.snd))).map List.length
      = splitSizes total (ws.map Prod.snd) :=
    splitSeg_lengths _ _ (by rw [hsum, hplen])
  have hseglen : (splitSeg (seededShuffle (initState seed entropy) (List.range total))
      (splitSizes total (ws.map Prod.snd))).length = ws.length := by
    rw [splitSeg_length]
    simp only [splitSizes]
    rw [sizesFromCuts_length, cutsGo_length, List.length_map]
  have hsnd : (((ws.map Prod.fst).zip
      (splitSeg (seededShuffle (initState seed entropy) (List.range total))
        (splitSizes total (ws.map Prod.snd)))).map Prod.snd)
      = splitSeg (seededShuffle (initState seed entropy) (List.range total))
        (splitSizes total (ws.map Prod.snd)) :=
    List.map_snd_zip _ _ (by rw [hseglen, List.length_map])
  have hfst : (((ws.map Prod.fst).zip
      (splitSeg (seededShuffle (initState seed entropy) (List.range total))
        (splitSizes total (ws.map Prod.snd)))).map Prod.fst) = ws.map Prod.fst :=
    List.map_fst_zip _ _ (by rw [hseglen, List.length_map])
  refine ⟨(ws.map Prod.fst).zip
      (splitSeg (seededShuffle (initState seed entropy) (List.range total))
        (splitSizes total (ws.map Prod.snd))), ?_, hfst, ?_, ?_, ?_, ?_⟩
  · simp [splitPartition, hok]
  · rw [hsnd]
    have hfn : (splitSeg (seededShuffle (initState seed entropy) (List.range total))
        (splitSizes total (ws.map Prod.snd))).flatten.Nodup := by
      rw [hflat]
      exact hnd
    exact (List.nodup_flatten.mp hfn).2
  · rw [hsnd, hflat]
    exact hpl
  · rw [hsnd, hlens, hsum]
  · intro i sz w hszi hwi
    rw [hsnd, hlens] at hszi
    refine cuts_sizes_tol total (ws.map Prod.snd) 0 hnn le_rfl hlo hhi i sz w ?_ hwi
    simpa [splitSizes] using hszi

/-- Witness for C3: 100 rows, weights train 8//10, validation 1//10,
test 1//10, seed 1 (the spec's own §8 example). -/
theorem claim_C3_split_partition_witness :
    weightsOk [("train", mkRat 8 10), ("validation", mkRat 1 10),
        ("test", mkRat 1 10)] = true
    ∧ (∃ parts : List (String × List Nat),
      splitPartition 100 [("train", mkRat 8 10), ("validation", mkRat 1 10),
          ("test", mkRat 1 10)] (some 1) 0 = .ok parts
      ∧ parts.map Prod.fst = [("train", mkRat 8 10), ("validation", mkRat 1 10),
          ("test", mkRat 1 10)].map Prod.fst
      ∧ List.Pairwise List.Disjoint (parts.map Prod.snd)
      ∧ ((parts.map Prod.snd).flatten).Perm (List.range 100)
      ∧ ((parts.map Prod.snd).map List.length).sum = 100
      ∧ (∀ i sz w, ((parts.map Prod.snd).map List.length).get? i = some sz →
          ([("train", mkRat 8 10), ("validation", mkRat 1 10),
            ("test", mkRat 1 10)].map Prod.snd).get? i = some w →
          |(sz : ℚ) - w * 100| ≤ 1 + 2 * wtol * 100)) :=
  ⟨by with_unfolding_all decide,
    claim_C3_split_partition 100 [("train", mkRat 8 10), ("validation", mkRat 1 10),
      ("test", mkRat 1 10)] (some 1) 0 (by with_unfolding_all decide)⟩

/-- Claim C5: seeded runs are deterministic — with a fixed seed, two
`BatchWindowPlanner` runs over the same `total_rows`, `batch_size`, and
`shuffle_buffer` produce identical window sequences (whatever ambient entropy
each run drew), and two `SplitPartitioner` runs with identical seed,
`total_rows`, and weights produce the identical index assignment. -/
theorem claim_C5_seeded_determinism (total bs sb s e1 e2 : Nat)
    (ws : List (String × ℚ)) :
    plannerWindows total bs sb (some s) e1 = plannerWindows total bs sb (some s) e2
    ∧ splitPartition total ws (some s) e1 = splitPartition total ws (some s) e2 := by
  constructor <;> simp [plannerWindows, plannedOrder, splitPartition, initState]

/-- Claim C6: with `shuffle_buffer = 0` the planner reproduces exactly the
sequential (unshuffled) window sequence; with `shuffle_buffer ≥ total_rows`
and a fixed seed, the produced ordering is a permutation of all the indices
and is identical across runs with that seed. -/
theorem claim_C6_shuffle_buffer_modes (total bs sb s e1 e2 : Nat)
    (hsb : total ≤ sb) :
    (∀ seed ent, plannerWindows total bs 0 seed ent = seqWindows total bs)
    ∧ (plannedOrder sb (some s) e1 total).Perm (List.range total)
    ∧ plannedOrder sb (some s) e1 total = plannedOrder sb (some s) e2 total := by
  refine ⟨?_, ?_, ?_⟩
  · intro seed ent
    simp [plannerWindows, plannedOrder, seqWindows]
  · by_cases h0 : sb = 0
    · subst h0
      have ht : total = 0 := Nat.le_zero.mp hsb
      subst ht
      simp [plannedOrder]
    · simp only [plannedOrder, if_neg h0]
      exact bufShuffle_perm sb _ (Nat.one_le_iff_ne_zero.mpr h0) _
  · simp [plannedOrder, initState]

/-- Witness for C6, instantiated at `total_rows = 5`, `shuffle_buffer = 8`,
`batch_size = 2`, seed 42, two distinct entropies. -/
theorem claim_C6_shuffle_buffer_modes_witness :
    5 ≤ 8
    ∧ ((∀ seed ent, plannerWindows 5 2 0 seed ent = seqWindows 5 2)
    ∧ (plannedOrder 8 (some 42) 0 5).Perm (List.range 5)
    ∧ plannedOrder 8 (some 42) 0 5 = plannedOrder 8 (some 42) 99 5) :=
  ⟨by decide, claim_C6_shuffle_buffer_modes 5 2 8 42 0 99 (by decide)⟩

/-- Witness for C8: fit on `["a","b"]`, then re-fit with `["a","z"]`. -/
theorem claim_C8_refit_error_witness :
    firstSeen ["a", "z"] ≠ firstSeen ["a", "b"]
    ∧ ((fit ((fit (⟨"cell_type", none⟩ : ColumnEncoder String) ["a", "b"]).1)
          ["a", "z"]).2 = some .encodingError
    ∧ (fit ((fit (⟨"cell_type", none⟩ : ColumnEncoder String) ["a", "b"]).1)
          ["a", "z"]).1
      = (fit (⟨"cell_type", none⟩ : ColumnEncoder String) ["a", "b"]).1) :=
  ⟨by decide, claim_C8_refit_error "cell_type" ["a", "b"] ["a", "z"] (by decide)⟩

theorem chunksF_subset (bs : Nat) : ∀ (fuel : Nat) (l : List α),
    ∀ w ∈ chunksF bs fuel l, ∀ r ∈ w, r ∈ l := by
  intro fuel
  induction fuel with
  | zero => intro l w hw; simp [chunksF] at hw
  | succ n ih =>
    intro l w hw r hr
    match l with
    | [] => simp [chunksF] at hw
    | x :: xs =>
      have hdef : chunksF bs (n + 1) (x :: xs)
          = (x :: xs).take bs :: chunksF bs n ((x :: xs).drop bs) := rfl
      rw [hdef] at hw
      rcases List.mem_cons.mp hw with hw | hw
      · subst hw
        exact List.take_subset bs (x :: xs) hr
      · exact List.drop_subset bs (x :: xs) (ih ((x :: xs).drop bs) w hw r hr)

/-- Claim C4: querying the shape of a `LazyBatchSource` before the first
`next()` never invokes the backing store's `read` — the read count of the
trace from construction through the shape query is zero; construction issues
only the schema validation and extent computation calls, and the shape query
issues none and answers the filtered row count and column extent. -/
theorem claim_C4_shape_no_read (st : Store) (pred : Nat → Bool)
    (obsCols : List String) (bs : Nat) :
    readCount ((mkSource st pred obsCols bs).2
        ++ (shape (mkSource st pred obsCols bs).1).2) = 0
    ∧ (mkSource st pred obsCols bs).2 = [.schemaQuery, .rowCountQuery]
    ∧ (shape (mkSource st pred obsCols bs).1).2 = []
    ∧ (shape (mkSource st pred obsCols bs).1).1
        = (((List.range st.nRows).filter pred).length, st.nVars) := by
  exact ⟨rfl, rfl, rfl, rfl⟩

/-- Claim C9: every batch yielded with `k ≥ 1` requested obs label columns
carries, for each of its rows, a label unit of `k + 1` entries whose entry 0
is the row's `soma_joinid` and whose entry `j + 1` is the encoded label of
the j-th requested column — the requested label sits at column index 1,
not 0. -/
theorem claim_C9_label_layout (st : Store) (src : LazyBatchSource)
    (order : List Nat) (hk : 1 ≤ src.obsCols.length) :
    ∀ b ∈ allBatches st src order, ∀ yrow ∈ b.y,
      yrow.length = src.obsCols.length + 1
      ∧ ∃ r ∈ order,
          yrow.get? 0 = some (st.joinid r)
          ∧ ∀ j, yrow.get? (j + 1) = (src.obsCols.get? j).map
              (fun c => (code_of (src.encoders c) (st.obsLabel c r)).getD 0) := by
  intro b hb yrow hy
  obtain ⟨w, hw, hbw⟩ := List.mem_map.mp hb
  subst hbw
  obtain ⟨r, hrw, hyr⟩ := List.mem_map.mp hy
  subst hyr
  have hro : r ∈ order := chunksF_subset src.batchSize order.length order w hw r hrw
  refine ⟨by simp, r, hro, rfl, ?_⟩
  intro j
  exact List.get?_map _ _ _

/-- Witness for C9: a three-row store with one requested column
`cell_type` and `batch_size = 2`. -/
theorem claim_C9_label_layout_witness :
    1 ≤ (LazyBatchSource.mk [0, 1, 2] 2 2 ["cell_type"]
        (fun _ => ["basal cell", "epithelial cell"])).obsCols.length
    ∧ ∀ b ∈ allBatches (Store.mk 3 2 (fun r => 42496620 + r)
          (fun _ _ => "basal cell") (fun _ => []))
        (LazyBatchSource.mk [0, 1, 2] 2 2 ["cell_type"]
          (fun _ => ["basal cell", "epithelial cell"])) [0, 1, 2],
      ∀ yrow ∈ b.y,
        yrow.length = (LazyBatchSource.mk [0, 1, 2] 2 2 ["cell_type"]
            (fun _ => ["basal cell", "epithelial cell"])).obsCols.length + 1
        ∧ ∃ r ∈ [0, 1, 2],
            yrow.get? 0 = some ((Store.mk 3 2 (fun r => 42496620 + r)
                (fun _ _ => "basal cell") (fun _ => [])).joinid r)
            ∧ ∀ j, yrow.get? (j + 1)
                = ((LazyBatchSource.mk [0, 1, 2] 2 2 ["cell_type"]
                    (fun _ => ["basal cell", "epithelial cell"])).obsCols.get? j).map
                  (fun c => (code_of ((LazyBatchSource.mk [0, 1, 2] 2 2 ["cell_type"]
                      (fun _ => ["basal cell", "epithelial cell"])).encoders c)
                    ((Store.mk 3 2 (fun r => 42496620 + r)
                      (fun _ _ => "basal cell") (fun _ => [])).obsLabel c r)).getD 0) :=
  ⟨by decide,
    claim_C9_label_layout
      (Store.mk 3 2 (fun r => 42496620 + r) (fun _ _ => "basal cell") (fun _ => []))
      (LazyBatchSource.mk [0, 1, 2] 2 2 ["cell_type"]
        (fun _ => ["basal cell", "epithelial cell"]))
      [0, 1, 2] (by decide)⟩

/-- Claim C10: the label-to-code mapping of `obs_encoders()` is a single
session-wide invariant — one encoder per requested obs column keyed by column
name, fit over the full filtered dataset and available from construction
(before any `next()`), with class lists that are duplicate-free and hold
exactly the distinct labels of the filtered dataset; and every split source
produced by `random_split` carries the identical mapping (and the same
requested columns), so train, validation, and test batches all decode with
identical codes. -/
theorem claim_C10_session_encoders (st : Store) (pred : Nat → Bool)
    (obsCols : List String) (bs : Nat) (ws : List (String × ℚ))
    (seed : Option Nat) (entropy : Nat) :
    (∀ c, ((mkSource st pred obsCols bs).1.encoders c).Nodup
      ∧ ∀ v, v ∈ (mkSource st pred obsCols bs).1.encoders c
          ↔ v ∈ ((List.range st.nRows).filter pred).map (st.obsLabel c))
    ∧ (∀ parts,
        randomSplit (mkSource st pred obsCols bs).1 ws seed entropy = .ok parts →
        ∀ p ∈ parts, p.2.encoders = (mkSource st pred obsCols bs).1.encoders
          ∧ p.2.obsCols = obsCols) := by
  constructor
  · intro c
    exact ⟨firstSeen_nodup _, fun v => firstSeen_mem _ v⟩
  · intro parts hparts
    rw [randomSplit] at hparts
    by_cases hwk : weightsOk ws
    · rw [if_pos hwk, Except.ok.injEq] at hparts
      subst hparts
      intro p hp
      have hmem := (List.of_mem_zip hp).2
      obtain ⟨seg, _, hseg⟩ := List.mem_map.mp hmem
      rw [← hseg]
      exact ⟨rfl, rfl⟩
    · rw [if_neg hwk] at hparts
      exact absurd hparts (by simp)

end CensusML
